import Mathlib

/-!
Verification of the pouchdb-adapter-node-sqlite storage core.

This file shallowly embeds the adapter's data model and operations:
the six-table schema created in `createInitialSchema` (src/types.d.ts),
the bulk-write pipeline (`src/bulkDocs.ts`), the compaction path
(`compactRevs` in src/utils and `api._doCompaction` in src/types.d.ts),
the one-shot change feed (`api._changes` / `fetchChanges`) and the
`TransactionQueue` (src/transactionQueue.ts).

Modelling conventions:
* Revision strings have the shape `<generation>-<hash>` where the hash is
  32 hex characters produced from a uuid and therefore never contains a
  dash; we embed such a string as the pair of its generation number and its
  hash, so the code's `rev.split('-')` / `parseInt(revParts[0])` round trip
  becomes field access, and `pos + '-' + hash` becomes the constructor.
* SQLite's `INTEGER PRIMARY KEY AUTOINCREMENT` column of the by-sequence
  table is embedded as the `nextSeq` counter of the database state: per the
  SQLite documentation an AUTOINCREMENT key is strictly larger than every
  key ever used in the table, and the high-water mark is persisted in the
  database file (`sqlite_sequence`), so it survives deletions and a
  close/reopen of the same file.
* JSON bodies are opaque strings; the MD5 content digest of an attachment
  is modelled by tagging the (opaque) decoded bytes with an `md5-` prefix.
* `uuid()` calls are modelled by explicit token parameters supplied by the
  caller (one per written document).
-/

namespace PouchSqlite

/-- A revision identifier `<generation>-<hash>`, embedded structurally. -/
structure Rev where
  pos : Nat
  hash : String
deriving DecidableEq, Repr

/-- `isLocalId` from pouchdb-merge (`/^_local/.test(id)`): an id is local
iff it starts with the reserved `_local` prefix, stated on the character
list. -/
def isLocalId (id : String) : Bool :=
  List.isPrefixOf "_local".data id.data

/-- The document metadata JSON stored in the `document-store.json` column:
`{id, rev_tree, rev, deleted, seq}` as assembled by `insertDoc`
(src/bulkDocs.ts lines 103-109).  A rev-tree node is embedded as a revision
paired with its `missing` status flag (`false` = available); `insertDoc`
always stores a single-node tree with literal position `1`. -/
structure Metadata where
  id : String
  rev : Option Rev
  revTree : List (Rev × Bool)
  deleted : Bool
  seq : Option Nat
deriving DecidableEq, Repr

/-- A row of the `by-sequence` table:
`(seq INTEGER PRIMARY KEY AUTOINCREMENT, json, deleted, doc_id, rev)`. -/
structure SeqRow where
  seq : Nat
  json : String
  deleted : Bool
  docId : Option String
  rev : Rev
deriving DecidableEq, Repr

/-- A row of the `document-store` table:
`(id UNIQUE, json, winningseq, max_seq, rev)`. -/
structure DocRow where
  id : String
  winningseq : Nat
  maxSeq : Nat
  json : Metadata
  rev : Rev
deriving DecidableEq, Repr

/-- A row of the `local-store` table: `(id UNIQUE, rev, json)`. -/
structure LocalRow where
  id : String
  rev : Rev
  json : String
deriving DecidableEq, Repr

/-- A row of the `attach-store` table: `(digest UNIQUE, escaped, body)`. -/
structure AttachRow where
  digest : String
  escaped : Nat
  body : String
deriving DecidableEq, Repr

/-- A row of the `attach-seq-store` link table: `(digest, seq)`. -/
structure AttachSeqRow where
  digest : String
  seq : Nat
deriving DecidableEq, Repr

/-- The persistent database state: the five data tables of
`createInitialSchema` plus the AUTOINCREMENT high-water counter of the
by-sequence table (the next rowid to be assigned; persisted in the file's
`sqlite_sequence` table, hence part of the durable state). -/
structure DB where
  docStore : List DocRow
  bySeq : List SeqRow
  localStore : List LocalRow
  attachStore : List AttachRow
  attachSeq : List AttachSeqRow
  nextSeq : Nat
deriving DecidableEq, Repr

/-- A freshly created database file: empty tables, first rowid 1. -/
def emptyDB : DB :=
  { docStore := [], bySeq := [], localStore := [], attachStore := []
    attachSeq := [], nextSeq := 1 }

/-- One attachment entry of an incoming document (`doc._attachments[key]`). -/
structure Attachment where
  key : String
  stub : Bool
  data : Option String
  digest : String
deriving DecidableEq, Repr

/-- An incoming document of a bulk write, after id assignment: its `_id`,
optional `_rev`, `_deleted` flag, opaque body JSON (the fields other than
`_id`/`_rev`, as produced by `stringifyDoc`), and attachments. -/
structure DocData where
  id : String
  rev : Option Rev
  deleted : Bool
  body : String
  atts : List Attachment
deriving DecidableEq, Repr

/-- The in-flight pair `{data, metadata}` built by `sqliteBulkDocs`. -/
structure DocInfo where
  data : DocData
  metadata : Metadata
deriving DecidableEq, Repr

/-- One entry of the result array assembled by `complete()` in
`sqliteBulkDocs`: either `{ok: true, id, rev}` or the `REV_CONFLICT`
error object. -/
inductive BResult where
  | ok (id : String) (rev : Option Rev)
  | conflict
deriving DecidableEq, Repr

/-- `INSERT OR REPLACE INTO local-store` keyed on the unique `id`. -/
def upsertLocal (rows : List LocalRow) (row : LocalRow) : List LocalRow :=
  if rows.any (fun r => r.id = row.id) then
    rows.map (fun r => if r.id = row.id then row else r)
  else
    rows ++ [row]

/-- `INSERT OR IGNORE INTO attach-store` keyed on the unique `digest`. -/
def insertOrIgnoreAttach (rows : List AttachRow) (row : AttachRow) :
    List AttachRow :=
  if rows.any (fun r => r.digest = row.digest) then rows else rows ++ [row]

/-- The MD5 content digest `'md5-' + hex(md5(bytes))` computed in
`insertDoc`; the hash itself is opaque to every claim, so the digest is
modelled as the tagged bytes. -/
def md5Digest (data : String) : String :=
  "md5-" ++ data

/-- `saveAttachment` (src/bulkDocs.ts lines 158-183): idempotently insert
the raw bytes keyed by digest, then insert a `(digest, seq)` link row. -/
def saveAttachment (att : Attachment) (seq : Nat) (db : DB) : DB :=
  { db with
    attachStore := insertOrIgnoreAttach db.attachStore
      ⟨att.digest, 0, att.data.getD ""⟩
    attachSeq := db.attachSeq ++ [⟨att.digest, seq⟩] }

/-- Digest stamping of `insertDoc` (lines 51-72): every non-stub attachment
with data gets `digest`/`revpos` computed; stubs keep their fields. -/
def stampAttachment (att : Attachment) : Attachment :=
  if !att.stub && att.data.isSome then
    { att with digest := md5Digest (att.data.getD "") }
  else
    att

/-- The attachment-saving loop of `insertDoc` (lines 128-147): every
non-stub attachment with data is handed to `saveAttachment`; stubs are
skipped. -/
def saveAttachments (atts : List Attachment) (seq : Nat) (db : DB) : DB :=
  atts.foldl
    (fun d a => if !a.stub && a.data.isSome then saveAttachment a seq d else d)
    db

/-- The new-revision computation of `insertDoc` (src/bulkDocs.ts lines
35-45): when the fetched metadata carries a revision, its generation plus
one paired with the fresh uuid token; otherwise generation 1. -/
def newRevOf (prior : Option Rev) (tok : String) : Rev :=
  match prior with
  | some r => ⟨r.pos + 1, tok⟩
  | none => ⟨1, tok⟩

/-- `insertDoc` (src/bulkDocs.ts lines 18-156).  Computes the new revision
from `docInfo.metadata.rev` (generation + 1, or 1 when absent) with the
fresh uuid token `tok`, inserts the new by-sequence row (consuming the next
AUTOINCREMENT sequence), then either writes the local store and returns
(local ids), or upserts the document row and saves attachments.  Returns
the new database state together with the updated `docInfo` (whose
`metadata.rev`/`metadata.seq` are reassigned on the non-local path,
mirroring lines 100-101). -/
def insertDoc (docInfo : DocInfo) (newRevIsDeleted : Bool)
    (isUpdate : Bool) (tok : String) (db : DB) : DB × DocInfo :=
  let doc := docInfo.data
  let id := doc.id
  let docId : Option String := if isLocalId id then none else some id
  let newRev : Rev := newRevOf docInfo.metadata.rev tok
  let atts := doc.atts.map stampAttachment
  let json := doc.body
  let seq := db.nextSeq
  let db1 : DB :=
    { db with
      bySeq := db.bySeq ++ [⟨seq, json, newRevIsDeleted, docId, newRev⟩]
      nextSeq := db.nextSeq + 1 }
  if isLocalId id then
    ({ db1 with localStore := upsertLocal db1.localStore ⟨id, newRev, json⟩ },
      docInfo)
  else
    let metadataToStore : Metadata :=
      { id := id, revTree := [(⟨1, newRev.hash⟩, false)], rev := some newRev
        deleted := newRevIsDeleted, seq := some seq }
    let db2 : DB :=
      if isUpdate then
        { db1 with
          docStore := db1.docStore.map (fun r =>
            if r.id = id then
              { r with json := metadataToStore, maxSeq := seq,
                       rev := newRev, winningseq := seq }
            else r) }
      else
        { db1 with
          docStore := db1.docStore ++ [⟨id, seq, seq, metadataToStore, newRev⟩] }
    let db3 := saveAttachments atts seq db2
    (db3,
      { docInfo with
        metadata := { docInfo.metadata with rev := some newRev, seq := some seq } })

/-- The metadata-fetch phase of `sqliteBulkDocs` (lines 223-260) for one
document: local ids read the local store and always succeed; other ids read
the document store, adopt the stored metadata, and are flagged with
`REV_CONFLICT` when an incoming `_rev` differs from the stored one.
Returns the updated `DocInfo` and the conflict flag. -/
def fetchExisting (db : DB) (di : DocInfo) : DocInfo × Bool :=
  let id := di.data.id
  if isLocalId id then
    match db.localStore.find? (fun r => r.id = id) with
    | some lr =>
      ({ di with metadata :=
          { di.metadata with rev := some lr.rev,
                             revTree := [(lr.rev, false)] } }, false)
    | none =>
      ({ di with metadata :=
          { di.metadata with rev := some ⟨0, "1"⟩,
                             revTree := [(⟨1, "1"⟩, false)] } }, false)
  else
    match db.docStore.find? (fun r => r.id = id) with
    | some row =>
      ({ di with metadata := row.json },
        di.data.rev.isSome && !(di.data.rev = row.json.rev))
    | none =>
      ({ di with metadata := { di.metadata with rev := none, revTree := [] } },
        false)

/-- The `processDocs` loop of `sqliteBulkDocs` (lines 264-285): every
fetched document — including those already flagged as conflicts — is
handed to `insertDoc` in order, threading the database state. -/
def processAll : DB → List (DocInfo × String) → DB × List DocInfo
  | db, [] => (db, [])
  | db, (di, tok) :: rest =>
    let isUpdate := di.metadata.rev.isSome
    let isDeleted := di.data.deleted
    let (db1, di1) := insertDoc di isDeleted isUpdate tok db
    let (db2, infos) := processAll db1 rest
    (db2, di1 :: infos)

/-- `complete()` (lines 287-304): one result per input, the recorded
conflict error when present, else `{ok, id, rev}` from the (mutated)
metadata. -/
def assembleResults : List DocInfo → List Bool → List BResult
  | [], _ => []
  | di :: rest, errs =>
    match errs with
    | [] => BResult.ok di.metadata.id di.metadata.rev :: assembleResults rest []
    | e :: etl =>
      (if e then BResult.conflict else BResult.ok di.metadata.id di.metadata.rev)
        :: assembleResults rest etl

/-- `sqliteBulkDocs` (src/bulkDocs.ts lines 185-306) inside its write
transaction: fetch the stored metadata / conflict flags for every document
first, then run `processDocs` over all of them, then assemble one result
per input in input order.  `toks` supplies the uuid revision token for each
document, positionally. -/
def sqliteBulkDocs (docs : List DocData) (toks : List String) (db : DB) :
    DB × List BResult :=
  let infos := docs.map (fun d =>
    DocInfo.mk d { id := d.id, rev := none, revTree := [], deleted := false
                   seq := none })
  let fetched := infos.map (fetchExisting db)
  let errs := fetched.map (fun p => p.2)
  let (db1, processed) := processAll db ((fetched.map (fun p => p.1)).zip toks)
  (db1, assembleResults processed errs)

/-- `compactRevs` (src/utils.ts):
`DELETE FROM "by-sequence" WHERE doc_id=? AND rev IN ((? || "-" || ?), ...)`.
The code splits each revision at its first dash and re-concatenates the two
halves in SQL; since revision hashes contain no dash this reassembles the
same revision, so the deleted rows are exactly those of `docId` whose
revision is in `revs`.  Only the by-sequence table is touched. -/
def compactRevs (revs : List Rev) (docId : String) (db : DB) : DB :=
  { db with
    bySeq := db.bySeq.filter (fun r =>
      !(r.docId = some docId && decide (r.rev ∈ revs))) }

/-- The `traverseRevTree` pass of `api._doCompaction`: set `status =
'missing'` on every tree node whose `pos + '-' + hash` revision is in the
compacted set. -/
def markMissing (revs : List Rev) (m : Metadata) : Metadata :=
  { m with revTree := m.revTree.map (fun p =>
      if p.1 ∈ revs then (p.1, true) else p) }

/-- `api._doCompaction` (src/types.d.ts lines 560-600): an empty revision
set short-circuits; otherwise, inside one transaction, the stored metadata
of the document row is rewritten with the compacted revisions marked
missing, then `compactRevs` deletes their by-sequence rows.  When the
document row is absent the parse of the missing row throws and the caught
error path leaves every table unchanged. -/
def doCompaction (docId : String) (revs : List Rev) (db : DB) : DB :=
  if revs.isEmpty then db
  else
    match db.docStore.find? (fun r => r.id = docId) with
    | none => db
    | some row =>
      let metadata := markMissing revs row.json
      let db1 : DB :=
        { db with docStore := db.docStore.map (fun r =>
            if r.id = docId then { r with json := metadata } else r) }
      compactRevs revs docId db1

/-- Options of a one-shot `api._changes` call: `since`, optional `limit`,
`descending`, optional `doc_ids`.  An absent limit is the JS `-1`, which in
`LIMIT -1` means unlimited. -/
structure ChangesOpts where
  since : Nat
  limit : Option Nat
  descending : Bool
  docIds : Option (List String)
deriving DecidableEq, Repr

/-- One reported change: built from the joined row (document metadata id,
`maxSeq` as the change's `seq`, winning revision and its deleted flag). -/
structure ChangeRow where
  id : String
  seq : Nat
  rev : Rev
  deleted : Bool
deriving DecidableEq, Repr

/-- The join of `fetchChanges`:
`document-store JOIN by-sequence ON id = doc_id AND winningseq = seq`.
`seq` is the primary key of the by-sequence table, so each document row
matches at most one by-sequence row. -/
def joinedRows (db : DB) : List (DocRow × SeqRow) :=
  db.docStore.filterMap (fun d =>
    (db.bySeq.find? (fun b => b.docId = some d.id && b.seq = d.winningseq)).map
      (fun b => (d, b)))

/-- The `WHERE` clause of `fetchChanges`: `maxSeq > ?` plus the optional
`doc_ids` id filter. -/
def matchingRows (db : DB) (since : Nat) (docIds : Option (List String)) :
    List (DocRow × SeqRow) :=
  (joinedRows db).filter (fun p =>
    since < p.1.maxSeq &&
    (match docIds with
     | none => true
     | some ids => decide (p.1.id ∈ ids)))

/-- `ORDER BY maxSeq ASC` comparator. -/
def seqAsc (p q : DocRow × SeqRow) : Bool := p.1.maxSeq ≤ q.1.maxSeq

/-- `ORDER BY maxSeq DESC` comparator. -/
def seqDesc (p q : DocRow × SeqRow) : Bool := q.1.maxSeq ≤ p.1.maxSeq

/-- Insert an element into a list sorted by `le`, keeping it sorted. -/
def insertSorted {α : Type} (le : α → α → Bool) (a : α) : List α → List α
  | [] => [a]
  | b :: t => if le a b then a :: b :: t else b :: insertSorted le a t

/-- The `ORDER BY` clause, modelled as a (stable, executable) insertion
sort by the given comparator. -/
def sortBy {α : Type} (le : α → α → Bool) : List α → List α
  | [] => []
  | a :: t => insertSorted le a (sortBy le t)

/-- The limit normalization of `api._changes`:
`let limit = 'limit' in opts ? opts.limit : -1; if (limit === 0) limit = 1`. -/
def limitEff (limit : Option Nat) : Option Nat :=
  match limit with
  | none => none
  | some 0 => some 1
  | some n => some n

/-- `LIMIT n` (and the coinciding `numResults === limit` break). -/
def takeLimit {α : Type} (lim : Option Nat) (l : List α) : List α :=
  match lim with
  | none => l
  | some n => l.take n

/-- Assembly of one change record from a joined row (`processChange` plus
`change.seq = item.maxSeq`). -/
def changeOf (p : DocRow × SeqRow) : ChangeRow :=
  ⟨p.1.json.id, p.1.maxSeq, p.2.rev, p.2.deleted⟩

/-- The value returned through `opts.complete`: the accumulated results and
`last_seq`. -/
structure ChangesResult where
  results : List ChangeRow
  lastSeq : Nat
deriving DecidableEq, Repr

/-- The since-normalization of `api._changes` (src/types.d.ts line 428):
`opts.since = opts.since && !descending ? opts.since : 0` — a descending
query (or a falsy `since`) resets `since` to `0`. -/
def normSince (since : Nat) (descending : Bool) : Nat :=
  if since ≠ 0 && !descending then since else 0

/-- The one-shot `fetchChanges` query of `api._changes` (src/types.d.ts
lines 413-510), with no caller-supplied `filter`/`view` (so the SQL
carries the `LIMIT` and the in-loop break at `numResults === limit`
coincides with it): select the joined rows with `maxSeq` above the
normalized `since`, order by `maxSeq`, truncate to the normalized limit,
and report the matched rows plus the last sequence observed while
scanning (`lastSeq` starts at the normalized `since`). -/
def fetchChanges (db : DB) (opts : ChangesOpts) : ChangesResult :=
  let since := normSince opts.since opts.descending
  let rows := matchingRows db since opts.docIds
  let sorted := sortBy (if opts.descending then seqDesc else seqAsc) rows
  let taken := takeLimit (limitEff opts.limit) sorted
  { results := taken.map changeOf
    lastSeq := (taken.getLast?).elim since (fun p => p.1.maxSeq) }

/-- An operation of a storage trace: a bulk write, a compaction, or a
close/reopen of the same database file. -/
inductive Op where
  | write (docs : List DocData) (toks : List String)
  | compact (docId : String) (revs : List Rev)
  | closeReopen

/-- Apply one trace operation.  `closeReopen` is the identity on the
persistent state: all six tables and the AUTOINCREMENT high-water mark
(`sqlite_sequence`) live in the database file and survive a close/reopen;
`fetchVersion` on reopen finds the current schema version and only reads
the stored instance id. -/
def applyOp (db : DB) : Op → DB
  | .write docs toks => (sqliteBulkDocs docs toks db).1
  | .compact docId revs => doCompaction docId revs db
  | .closeReopen => db

/-- The sequence numbers assigned by a step, observed as the seqs of the
by-sequence rows appended beyond the previous table contents. -/
def newSeqsOf (db db' : DB) : List Nat :=
  (db'.bySeq.drop db.bySeq.length).map (fun r => r.seq)

/-- Run a trace, accumulating the assigned sequence numbers in assignment
order. -/
def runOps : DB → List Op → DB × List Nat
  | db, [] => (db, [])
  | db, op :: rest =>
    let db1 := applyOp db op
    let (db2, log2) := runOps db1 rest
    (db2, newSeqsOf db db1 ++ log2)

end PouchSqlite

namespace PouchSqlite.TransactionQueue

/-- One call the enqueued function makes on its transaction handle:
`execute(sql, ...)`, `commit()` or `rollback()`. -/
inductive TxAct where
  | exec
  | commit
  | rollback
deriving DecidableEq, Repr

/-- A statement the queue issues on the underlying connection. -/
inductive DbEvt where
  | begin
  | commit
  | rollback
deriving DecidableEq, Repr

/-- The behaviour of a function passed to `runWriteTransaction`: the
ordered calls it makes on the transaction handle, and whether it throws
after making them (a throw from a handle call itself also aborts the
remaining calls). -/
structure FnScript where
  acts : List TxAct
  throwsAfter : Bool
deriving DecidableEq, Repr

/-- The mutable state of `runWriteTransaction`: the `isFinalized` and
`isRolledBack` flags plus the log of statements issued on the
connection. -/
structure TxRun where
  isFinalized : Bool
  isRolledBack : Bool
  log : List DbEvt
deriving DecidableEq, Repr

/-- Run the function's calls against the transaction handle
(src/transactionQueue.ts lines 78-129).  `execute` throws on a finalized
transaction; `commit`/`rollback` throw when already finalized, otherwise
issue the statement and set the flags.  Returns the state and whether a
call threw (aborting the remaining calls, and hence the function). -/
def runActs : List TxAct → TxRun → TxRun × Bool
  | [], st => (st, false)
  | a :: rest, st =>
    match a with
    | .exec => if st.isFinalized then (st, true) else runActs rest st
    | .commit =>
      if st.isFinalized then (st, true)
      else runActs rest
        { st with isFinalized := true, log := st.log ++ [DbEvt.commit] }
    | .rollback =>
      if st.isFinalized then (st, true)
      else runActs rest
        { st with isFinalized := true, isRolledBack := true
                  log := st.log ++ [DbEvt.rollback] }

/-- `runWriteTransaction` (src/transactionQueue.ts lines 74-152):
`BEGIN IMMEDIATE`, run the function; on normal return auto-commit unless
finalized; on a throw auto-rollback unless finalized and rethrow.  Returns
the final state and whether the call rethrew. -/
def runWriteTransaction (fn : FnScript) : TxRun × Bool :=
  let st0 : TxRun := ⟨false, false, [DbEvt.begin]⟩
  let p := runActs fn.acts st0
  let st1 := p.1
  let fnThrew := p.2 || fn.throwsAfter
  if fnThrew then
    if st1.isFinalized then (st1, true)
    else
      ({ st1 with isFinalized := true, isRolledBack := true
                  log := st1.log ++ [DbEvt.rollback] }, true)
  else
    if st1.isFinalized then (st1, false)
    else
      ({ st1 with isFinalized := true, log := st1.log ++ [DbEvt.commit] },
        false)

/-- How the write transaction ended: the last statement issued on the
connection. -/
def terminal (fn : FnScript) : Option DbEvt :=
  (runWriteTransaction fn).1.log.getLast?

/-- The state of a `TransactionQueue` together with its observable
history.  `queue` holds the ids of submitted-but-undispatched operations
in submission order; `pending` is an operation dispatched through
`setImmediate` whose callback has not started; `running` is an operation
whose transaction is executing; `submitted`/`finished` log ids in
submission/completion order; `nextId` generates fresh ids. -/
structure QState where
  queue : List Nat
  inProgress : Bool
  pending : Option Nat
  running : Option Nat
  submitted : List Nat
  finished : List Nat
  nextId : Nat
deriving DecidableEq, Repr

/-- The initial queue: empty, idle. -/
def qInit : QState :=
  ⟨[], false, none, none, [], [], 0⟩

/-- `TransactionQueue.run` (src/transactionQueue.ts lines 33-72): bail out
if a transaction is in progress; otherwise, if the queue is non-empty, set
the in-progress flag, shift the head and schedule it via `setImmediate`
(it becomes `pending`); an empty queue clears the flag. -/
def runQ (s : QState) : QState :=
  if s.inProgress then s
  else
    match s.queue with
    | [] => { s with inProgress := false }
    | h :: t => { s with inProgress := true, queue := t, pending := some h }

/-- `push`/`pushReadOnly` (lines 195-219): append the operation to the
queue, then call `run`. -/
def pushQ (s : QState) : QState :=
  runQ { s with queue := s.queue ++ [s.nextId]
                submitted := s.submitted ++ [s.nextId]
                nextId := s.nextId + 1 }

/-- The `setImmediate` callback begins: the pending operation starts its
transaction. -/
def startQ (s : QState) : QState :=
  match s.pending with
  | some h => { s with pending := none, running := some h }
  | none => s

/-- The `finally` block of the callback (lines 59-67): the operation
reaches a terminal state, `finish()` runs, the in-progress flag clears,
and if the queue is non-empty `run` dispatches the next operation. -/
def finishQ (s : QState) : QState :=
  match s.running with
  | some h =>
    runQ { s with running := none, finished := s.finished ++ [h]
                  inProgress := false }
  | none => s

/-- The states a `TransactionQueue` can reach from the initial state by
submissions, callback starts and completions. -/
inductive Reach : QState → Prop
  | init : Reach qInit
  | push {s : QState} : Reach s → Reach (pushQ s)
  | start {s : QState} : Reach s → Reach (startQ s)
  | finish {s : QState} : Reach s → Reach (finishQ s)

/-- The inductive invariant of the queue: the in-progress flag tracks
whether an operation is dispatched or running, at most one operation is
in flight, an idle queue is drained, and the submission log decomposes as
finished, then in-flight, then still-queued operations — dispatch happens
in submission order. -/
def QInv (s : QState) : Prop :=
  s.inProgress = (s.pending.isSome || s.running.isSome) ∧
  (s.pending.isSome → s.running = none) ∧
  (s.inProgress = false → s.queue = []) ∧
  s.submitted =
    s.finished ++ s.running.toList ++ s.pending.toList ++ s.queue

end PouchSqlite.TransactionQueue

namespace PouchSqlite

/-- A concrete one-document database: document `a` at revision `1-x`,
whose single by-sequence row has sequence 1; next AUTOINCREMENT value 2. -/
def dbA : DB :=
  { docStore := [⟨"a", 1, 1, ⟨"a", some ⟨1, "x"⟩, [(⟨1, "x"⟩, false)], false, some 1⟩, ⟨1, "x"⟩⟩]
    bySeq := [⟨1, "b0", false, some "a", ⟨1, "x"⟩⟩]
    localStore := [], attachStore := [], attachSeq := [], nextSeq := 2 }

/-- A concrete database for the compaction claim: document `foo` with two
by-sequence rows (revisions `1-a` at seq 1 and the winning `2-b` at seq 2)
and one attachment whose only link row references seq 1. -/
def dbC : DB :=
  { docStore := [⟨"foo", 2, 2, ⟨"foo", some ⟨2, "b"⟩, [(⟨1, "b"⟩, false)], false, some 2⟩, ⟨2, "b"⟩⟩]
    bySeq := [⟨1, "j1", false, some "foo", ⟨1, "a"⟩⟩, ⟨2, "j2", false, some "foo", ⟨2, "b"⟩⟩]
    localStore := [], attachStore := [⟨"md5-d", 0, "D"⟩]
    attachSeq := [⟨"md5-d", 1⟩], nextSeq := 3 }

end PouchSqlite

namespace PouchSqlite

/-- C1.  On database `dbA` (document `a` stored at revision `1-x`), a bulk
write of document `a` with the mismatching revision `1-y` records a
Conflict result for it — but storage is NOT left unchanged on its behalf:
a new by-sequence row (seq 2, revision `2-t`) is inserted, sequence number
2 is consumed, and the document row is updated to revision `2-t`.  This
evaluates `sqliteBulkDocs` at the failing input of the claim: `processDocs`
(src/bulkDocs.ts lines 264-285) hands every fetched document to
`insertDoc`, never consulting the recorded `docInfoErrors`. -/
theorem bulkDocs_conflict_still_mutates :
    (sqliteBulkDocs [⟨"a", some ⟨1, "y"⟩, false, "b1", []⟩] ["t"] dbA).2
      = [BResult.conflict] ∧
    (sqliteBulkDocs [⟨"a", some ⟨1, "y"⟩, false, "b1", []⟩] ["t"] dbA).1.bySeq
      = [⟨1, "b0", false, some "a", ⟨1, "x"⟩⟩, ⟨2, "b1", false, some "a", ⟨2, "t"⟩⟩] ∧
    (sqliteBulkDocs [⟨"a", some ⟨1, "y"⟩, false, "b1", []⟩] ["t"] dbA).1.nextSeq = 3 ∧
    ¬((sqliteBulkDocs [⟨"a", some ⟨1, "y"⟩, false, "b1", []⟩] ["t"] dbA).1.docStore
        = dbA.docStore) := by
  refine ⟨rfl, rfl, rfl, ?_⟩
  decide

/-- C2.  On database `dbC`, compacting revision `1-a` of document `foo`
deletes its by-sequence row (per the issued SQL) but leaves the
attachment-link row `(md5-d, 1)` — whose sequence 1 was just compacted —
and the now-orphaned attachment row `md5-d` fully intact:
`api._doCompaction` only rewrites tree metadata and calls `compactRevs`,
which touches nothing but the by-sequence table. -/
theorem compaction_leaves_attachment_rows :
    (doCompaction "foo" [⟨1, "a"⟩] dbC).attachSeq = [⟨"md5-d", 1⟩] ∧
    (doCompaction "foo" [⟨1, "a"⟩] dbC).attachStore = [⟨"md5-d", 0, "D"⟩] ∧
    (doCompaction "foo" [⟨1, "a"⟩] dbC).bySeq
      = [⟨2, "j2", false, some "foo", ⟨2, "b"⟩⟩] := by
  refine ⟨rfl, rfl, rfl⟩

/-- C4.  On database `dbA` (document `a` already stored), a bulk write of
document `a` with NO supplied revision is accepted as an update — the
result is `{ok, id: a, rev: 2-t}`, not Conflict: the conflict check in
`sqliteBulkDocs` (line 252) only fires when an incoming `_rev` is present
and differs, so a duplicate create is never rejected. -/
theorem duplicate_create_accepted :
    (sqliteBulkDocs [⟨"a", none, false, "b1", []⟩] ["t"] dbA).2
      = [BResult.ok "a" (some ⟨2, "t"⟩)] ∧
    ¬((sqliteBulkDocs [⟨"a", none, false, "b1", []⟩] ["t"] dbA).2
        = [BResult.conflict]) := by
  refine ⟨rfl, ?_⟩
  decide

/-- C3 counterexample.  A bulk write of the local document `_local/x` on a
fresh database does NOT leave the by-sequence table unchanged: a
by-sequence row (with null `doc_id`) is inserted and sequence number 1 is
consumed — `insertDoc` runs its by-sequence INSERT before branching on
`isLocalId`. -/
theorem local_write_inserts_by_seq_row :
    ¬((sqliteBulkDocs [⟨"_local/x", none, false, "b", []⟩] ["t"] emptyDB).1.bySeq
        = emptyDB.bySeq) ∧
    (sqliteBulkDocs [⟨"_local/x", none, false, "b", []⟩] ["t"] emptyDB).1.bySeq
      = [⟨1, "b", false, none, ⟨1, "t"⟩⟩] ∧
    (sqliteBulkDocs [⟨"_local/x", none, false, "b", []⟩] ["t"] emptyDB).1.nextSeq
      = 2 := by
  refine ⟨by decide, rfl, rfl⟩

/-- C3 amended.  For every bulk write of a single document whose id has the
reserved local prefix: the document, attachment and attachment-link tables
are left unchanged, but — contrary to the original claim — a by-sequence
row with a null document id is appended and one sequence number is
consumed, alongside the local-store upsert.  (The null `doc_id` is what
keeps local documents out of change feeds and ranged scans, which join on
document id.) -/
theorem local_write_frame (db : DB) (d : DocData) (tok : String)
    (h : isLocalId d.id = true) :
    ∃ rv : Rev,
      (sqliteBulkDocs [d] [tok] db).1 =
        { db with
          bySeq := db.bySeq ++ [⟨db.nextSeq, d.body, d.deleted, none, rv⟩]
          nextSeq := db.nextSeq + 1
          localStore := upsertLocal db.localStore ⟨d.id, rv, d.body⟩ } := by
  cases hfind : db.localStore.find? (fun r => r.id = d.id) with
  | none =>
    refine ⟨⟨1, tok⟩, ?_⟩
    simp [sqliteBulkDocs, fetchExisting, processAll, insertDoc, newRevOf, h, hfind]
  | some lr =>
    refine ⟨⟨lr.rev.pos + 1, tok⟩, ?_⟩
    simp [sqliteBulkDocs, fetchExisting, processAll, insertDoc, newRevOf, h, hfind]

/-- C3 witness: the amended frame theorem applied to a concrete local
write on the empty database. -/
theorem local_write_frame_witness :
    isLocalId "_local/x" = true ∧
    ∃ rv : Rev,
      (sqliteBulkDocs [⟨"_local/x", none, false, "b", []⟩] ["t"] emptyDB).1 =
        { emptyDB with
          bySeq := emptyDB.bySeq ++ [⟨emptyDB.nextSeq, "b", false, none, rv⟩]
          nextSeq := emptyDB.nextSeq + 1
          localStore := upsertLocal emptyDB.localStore ⟨"_local/x", rv, "b"⟩ } :=
  ⟨by decide,
    local_write_frame emptyDB ⟨"_local/x", none, false, "b", []⟩ "t" (by decide)⟩

/-- The attachment-saving loop of `insertDoc` only touches the attachment
and attachment-link tables: document store, by-sequence store, local store
and the sequence counter are untouched. -/
theorem saveAttachments_frame (atts : List Attachment) (seq : Nat) (db : DB) :
    (saveAttachments atts seq db).docStore = db.docStore ∧
    (saveAttachments atts seq db).bySeq = db.bySeq ∧
    (saveAttachments atts seq db).localStore = db.localStore ∧
    (saveAttachments atts seq db).nextSeq = db.nextSeq := by
  induction atts generalizing db with
  | nil => exact ⟨rfl, rfl, rfl, rfl⟩
  | cons a tl ih =>
    have step : saveAttachments (a :: tl) seq db
        = saveAttachments tl seq
            (if !a.stub && a.data.isSome then saveAttachment a seq db else db) :=
      rfl
    rw [step]
    by_cases h : (!a.stub && a.data.isSome) = true
    · rw [if_pos h]
      exact ih (saveAttachment a seq db)
    · rw [if_neg h]
      exact ih db

/-- The attachment loop keeps the document store. -/
theorem saveAttachments_docStore (atts : List Attachment) (seq : Nat) (db : DB) :
    (saveAttachments atts seq db).docStore = db.docStore :=
  (saveAttachments_frame atts seq db).1

/-- The attachment loop keeps the by-sequence store. -/
theorem saveAttachments_bySeq (atts : List Attachment) (seq : Nat) (db : DB) :
    (saveAttachments atts seq db).bySeq = db.bySeq :=
  (saveAttachments_frame atts seq db).2.1

/-- The attachment loop keeps the local store. -/
theorem saveAttachments_localStore (atts : List Attachment) (seq : Nat) (db : DB) :
    (saveAttachments atts seq db).localStore = db.localStore :=
  (saveAttachments_frame atts seq db).2.2.1

/-- The attachment loop keeps the sequence counter. -/
theorem saveAttachments_nextSeq (atts : List Attachment) (seq : Nat) (db : DB) :
    (saveAttachments atts seq db).nextSeq = db.nextSeq :=
  (saveAttachments_frame atts seq db).2.2.2

/-- The new revision always carries the fresh token as its hash. -/
theorem newRevOf_hash (prior : Option Rev) (tok : String) :
    (newRevOf prior tok).hash = tok := by
  cases prior <;> rfl

/-- `insertDoc` appends exactly one by-sequence row — next AUTOINCREMENT
sequence, body JSON, deleted flag, null document id for local ids, the
computed new revision — and advances the sequence counter by one. -/
theorem insertDoc_bySeq (di : DocInfo) (nd iu : Bool) (tok : String) (db : DB) :
    (insertDoc di nd iu tok db).1.bySeq
      = db.bySeq ++ [⟨db.nextSeq, di.data.body, nd,
          (if isLocalId di.data.id then none else some di.data.id),
          newRevOf di.metadata.rev tok⟩] ∧
    (insertDoc di nd iu tok db).1.nextSeq = db.nextSeq + 1 := by
  by_cases h : isLocalId di.data.id = true
  · simp [insertDoc, h]
  · cases iu <;>
      simp [insertDoc, h, saveAttachments_bySeq, saveAttachments_nextSeq]

/-- On the non-local path, `insertDoc` returns the doc-info with its
metadata revision set to the new revision and its sequence to the consumed
one (src/bulkDocs.ts lines 100-101). -/
theorem insertDoc_snd (di : DocInfo) (nd iu : Bool) (tok : String) (db : DB)
    (h : isLocalId di.data.id = false) :
    (insertDoc di nd iu tok db).2
      = ⟨di.data,
          { di.metadata with rev := some (newRevOf di.metadata.rev tok),
                             seq := some db.nextSeq }⟩ := by
  cases iu <;> simp [insertDoc, h]

/-- The non-local update branch of `insertDoc`: every document row with the
written id is rewritten to the new winning sequence, max sequence,
metadata and revision. -/
theorem insertDoc_docStore_update (di : DocInfo) (nd : Bool) (tok : String)
    (db : DB) (h : isLocalId di.data.id = false) :
    (insertDoc di nd true tok db).1.docStore
      = db.docStore.map (fun x =>
          if x.id = di.data.id then
            { x with
              json := ⟨di.data.id, some (newRevOf di.metadata.rev tok),
                       [(⟨1, tok⟩, false)], nd, some db.nextSeq⟩
              maxSeq := db.nextSeq
              rev := newRevOf di.metadata.rev tok
              winningseq := db.nextSeq }
          else x) := by
  simp [insertDoc, h, saveAttachments_docStore, newRevOf_hash]

/-- The non-local insert branch of `insertDoc`: a fresh document row is
appended. -/
theorem insertDoc_docStore_insert (di : DocInfo) (nd : Bool) (tok : String)
    (db : DB) (h : isLocalId di.data.id = false) :
    (insertDoc di nd false tok db).1.docStore
      = db.docStore ++ [⟨di.data.id, db.nextSeq, db.nextSeq,
          ⟨di.data.id, some (newRevOf di.metadata.rev tok),
           [(⟨1, tok⟩, false)], nd, some db.nextSeq⟩,
          newRevOf di.metadata.rev tok⟩] := by
  simp [insertDoc, h, saveAttachments_docStore, newRevOf_hash]

/-- A single-document bulk write reduces to one fetch followed by one
`insertDoc`, with the result drawn from the conflict flag and the final
metadata. -/
theorem bulkDocs_single (d : DocData) (tok : String) (db : DB) :
    sqliteBulkDocs [d] [tok] db
      = ((insertDoc (fetchExisting db ⟨d, ⟨d.id, none, [], false, none⟩⟩).1
            (fetchExisting db ⟨d, ⟨d.id, none, [], false, none⟩⟩).1.data.deleted
            (fetchExisting db ⟨d, ⟨d.id, none, [], false, none⟩⟩).1.metadata.rev.isSome
            tok db).1,
         [if (fetchExisting db ⟨d, ⟨d.id, none, [], false, none⟩⟩).2 then
            BResult.conflict
          else
            BResult.ok
              (insertDoc (fetchExisting db ⟨d, ⟨d.id, none, [], false, none⟩⟩).1
                (fetchExisting db ⟨d, ⟨d.id, none, [], false, none⟩⟩).1.data.deleted
                (fetchExisting db ⟨d, ⟨d.id, none, [], false, none⟩⟩).1.metadata.rev.isSome
                tok db).2.metadata.id
              (insertDoc (fetchExisting db ⟨d, ⟨d.id, none, [], false, none⟩⟩).1
                (fetchExisting db ⟨d, ⟨d.id, none, [], false, none⟩⟩).1.data.deleted
                (fetchExisting db ⟨d, ⟨d.id, none, [], false, none⟩⟩).1.metadata.rev.isSome
                tok db).2.metadata.rev]) :=
  rfl

/-- C7.  For a single-document non-local bulk write: when a document row
for the id exists with stored revision `r` and the supplied `_rev` matches
it, the write is accepted with new revision `(r.pos + 1)-tok` — prior
generation plus one, paired with the fresh token — and every document row
for that id now carries that revision; when no document row exists, the
new revision is `1-tok`.  Hence generation increases by exactly 1 along a
revision chain. -/
theorem new_rev_generation (db : DB) (d : DocData) (tok : String)
    (hnl : isLocalId d.id = false) :
    (∀ row r, db.docStore.find? (fun x => x.id = d.id) = some row →
      row.json.rev = some r → d.rev = some r →
      (sqliteBulkDocs [d] [tok] db).2
        = [BResult.ok row.json.id (some ⟨r.pos + 1, tok⟩)] ∧
      ∀ x ∈ (sqliteBulkDocs [d] [tok] db).1.docStore,
        x.id = d.id → x.rev = ⟨r.pos + 1, tok⟩) ∧
    (db.docStore.find? (fun x => x.id = d.id) = none →
      (sqliteBulkDocs [d] [tok] db).2 = [BResult.ok d.id (some ⟨1, tok⟩)] ∧
      ∀ x ∈ (sqliteBulkDocs [d] [tok] db).1.docStore,
        x.id = d.id → x.rev = ⟨1, tok⟩) := by
  constructor
  · intro row r hfind hrev hdrev
    have hfetch : fetchExisting db ⟨d, ⟨d.id, none, [], false, none⟩⟩
        = (⟨d, row.json⟩, false) := by
      simp [fetchExisting, hnl, hfind, hrev, hdrev]
    constructor
    · rw [bulkDocs_single, hfetch]
      simp [insertDoc_snd, hnl, hrev, newRevOf]
    · intro x hx hxid
      rw [bulkDocs_single, hfetch] at hx
      simp only [hrev, Option.isSome_some] at hx
      rw [insertDoc_docStore_update ⟨d, row.json⟩ d.deleted tok db hnl] at hx
      rcases List.mem_map.mp hx with ⟨y, _, hyx⟩
      by_cases hid : y.id = d.id
      · rw [if_pos hid] at hyx
        rw [← hyx]
        simp [hrev, newRevOf]
      · rw [if_neg hid] at hyx
        rw [← hyx] at hxid
        exact absurd hxid hid
  · intro hfind
    have hfetch : fetchExisting db ⟨d, ⟨d.id, none, [], false, none⟩⟩
        = (⟨d, ⟨d.id, none, [], false, none⟩⟩, false) := by
      simp [fetchExisting, hnl, hfind]
    constructor
    · rw [bulkDocs_single, hfetch]
      simp [insertDoc_snd, hnl, newRevOf]
    · intro x hx hxid
      rw [bulkDocs_single, hfetch] at hx
      simp only [Option.isSome_none] at hx
      rw [insertDoc_docStore_insert ⟨d, ⟨d.id, none, [], false, none⟩⟩
        d.deleted tok db hnl] at hx
      rcases List.mem_append.mp hx with hx | hx
      · exact absurd (List.find?_eq_none.mp hfind x hx) (by simp [hxid])
      · rw [List.mem_singleton.mp hx]
        simp [newRevOf]

/-- C7 witness: the revision-generation theorem applied to database `dbA`
(document `a` stored at revision `1-x`) with the matching incoming
revision. -/
theorem new_rev_generation_witness :
    isLocalId "a" = false ∧
    (sqliteBulkDocs [⟨"a", some ⟨1, "x"⟩, false, "b1", []⟩] ["t"] dbA).2
      = [BResult.ok "a" (some ⟨2, "t"⟩)] :=
  ⟨by decide,
    ((new_rev_generation dbA ⟨"a", some ⟨1, "x"⟩, false, "b1", []⟩ "t"
        (by decide)).1 _ ⟨1, "x"⟩ rfl rfl rfl).1⟩

end PouchSqlite

namespace PouchSqlite.TransactionQueue

/-- C8 counterexample.  The function that calls `commit()` and then throws:
`runWriteTransaction` rethrows, yet the transaction ended COMMITTED — the
catch block skips the rollback because `isFinalized` is already set — so
"if the function throws ... the transaction ends rolled back" is false as
stated. -/
theorem commit_then_throw_ends_committed :
    (runWriteTransaction ⟨[TxAct.commit], true⟩).2 = true ∧
    terminal ⟨[TxAct.commit], true⟩ = some DbEvt.commit ∧
    ¬(terminal ⟨[TxAct.commit], true⟩ = some DbEvt.rollback) := by
  refine ⟨rfl, rfl, ?_⟩
  decide

/-- A finalized transaction absorbs every further handle call: the state
is unchanged (each call merely throws). -/
theorem runActs_finalized (acts : List TxAct) (st : TxRun)
    (h : st.isFinalized = true) : (runActs acts st).1 = st := by
  cases acts with
  | nil => rfl
  | cons a tl => cases a <;> simp [runActs, h]

/-- A run containing neither commit nor rollback leaves the transaction
state untouched and never throws from a handle call. -/
theorem runActs_no_terminal (acts : List TxAct) (st : TxRun)
    (hf : st.isFinalized = false)
    (hc : TxAct.commit ∉ acts) (hr : TxAct.rollback ∉ acts) :
    runActs acts st = (st, false) := by
  induction acts with
  | nil => rfl
  | cons a tl ih =>
    cases a with
    | exec =>
      rw [List.mem_cons, not_or] at hc hr
      simp [runActs, hf, ih hc.2 hr.2]
    | commit => exact absurd (List.mem_cons_self _ _) hc
    | rollback => exact absurd (List.mem_cons_self _ _) hr

/-- A run with no commit call but some rollback call finalizes with a
single ROLLBACK appended to the connection log. -/
theorem runActs_rollback (acts : List TxAct) (st : TxRun)
    (hf : st.isFinalized = false)
    (hc : TxAct.commit ∉ acts) (hr : TxAct.rollback ∈ acts) :
    (runActs acts st).1
      = { st with isFinalized := true, isRolledBack := true
                  log := st.log ++ [DbEvt.rollback] } := by
  induction acts with
  | nil => exact absurd hr (List.not_mem_nil _)
  | cons a tl ih =>
    cases a with
    | exec =>
      rw [List.mem_cons, not_or] at hc
      rcases List.mem_cons.mp hr with h | h
      · exact absurd h.symm (by decide)
      · simp [runActs, hf]
        exact ih hc.2 h
    | commit => exact absurd (List.mem_cons_self _ _) hc
    | rollback =>
      have step : runActs (TxAct.rollback :: tl) st
          = runActs tl
              { st with isFinalized := true, isRolledBack := true
                        log := st.log ++ [DbEvt.rollback] } := by
        simp [runActs, hf]
      rw [step]
      exact runActs_finalized tl _ rfl

/-- C8 amended.  For every function enqueued as a write transaction that
never calls `commit`: if it returns normally without calling `rollback`
the transaction ends committed, and if it throws or calls `rollback` the
transaction ends rolled back.  (The carve-out for an explicit earlier
`commit` is forced by `commit_then_throw_ends_committed`.) -/
theorem write_transaction_outcome (fn : FnScript)
    (hc : TxAct.commit ∉ fn.acts) :
    (fn.throwsAfter = false → TxAct.rollback ∉ fn.acts →
      terminal fn = some DbEvt.commit) ∧
    (fn.throwsAfter = true ∨ TxAct.rollback ∈ fn.acts →
      terminal fn = some DbEvt.rollback) := by
  constructor
  · intro ht hr
    have h := runActs_no_terminal fn.acts ⟨false, false, [DbEvt.begin]⟩ rfl hc hr
    simp [terminal, runWriteTransaction, h, ht]
  · intro hcase
    by_cases hr : TxAct.rollback ∈ fn.acts
    · have h := runActs_rollback fn.acts ⟨false, false, [DbEvt.begin]⟩ rfl hc hr
      by_cases h2 : ((runActs fn.acts ⟨false, false, [DbEvt.begin]⟩).2 = true
          ∨ fn.throwsAfter = true)
      · simp [terminal, runWriteTransaction, h, h2]
      · simp [terminal, runWriteTransaction, h, h2]
    · have ht : fn.throwsAfter = true := by
        rcases hcase with h | h
        · exact h
        · exact absurd h hr
      have h := runActs_no_terminal fn.acts ⟨false, false, [DbEvt.begin]⟩ rfl hc hr
      simp [terminal, runWriteTransaction, h, ht]

/-- C8 witness: the outcome theorem applied to two concrete scripts — a
plain run of executes that returns normally (ends committed), and a run
that calls rollback (ends rolled back). -/
theorem write_transaction_outcome_witness :
    terminal ⟨[TxAct.exec], false⟩ = some DbEvt.commit ∧
    terminal ⟨[TxAct.exec, TxAct.rollback], false⟩ = some DbEvt.rollback :=
  ⟨(write_transaction_outcome ⟨[TxAct.exec], false⟩ (by decide)).1 rfl (by decide),
   (write_transaction_outcome ⟨[TxAct.exec, TxAct.rollback], false⟩ (by decide)).2
     (Or.inr (by decide))⟩

end PouchSqlite.TransactionQueue

namespace PouchSqlite.TransactionQueue

/-- The initial queue satisfies the invariant. -/
theorem qinv_init : QInv qInit := by
  refine ⟨rfl, ?_, fun _ => rfl, rfl⟩
  intro h
  simp [qInit] at h

/-- `push` preserves the queue invariant. -/
theorem qinv_push {s : QState} (h : QInv s) : QInv (pushQ s) := by
  obtain ⟨h1, h2, h3, h4⟩ := h
  cases hb : s.inProgress with
  | true =>
    have hs : pushQ s
        = { s with queue := s.queue ++ [s.nextId]
                   submitted := s.submitted ++ [s.nextId]
                   nextId := s.nextId + 1 } := by
      simp [pushQ, runQ, hb]
    rw [hs]
    refine ⟨h1, h2, ?_, ?_⟩
    · intro hf
      simp at hf
      rw [hb] at hf
      exact absurd hf (by decide)
    · show s.submitted ++ [s.nextId] = _
      rw [h4]
      simp
  | false =>
    have h1' := h1
    rw [hb] at h1'
    have hpn : s.pending = none := by
      cases hq : s.pending
      · rfl
      · rw [hq] at h1'
        simp at h1'
    have hrn : s.running = none := by
      cases hq : s.running
      · rfl
      · rw [hq] at h1'
        simp at h1'
    have hq0 : s.queue = [] := h3 hb
    have hs : pushQ s
        = { s with queue := []
                   inProgress := true
                   pending := some s.nextId
                   submitted := s.submitted ++ [s.nextId]
                   nextId := s.nextId + 1 } := by
      simp [pushQ, runQ, hb, hq0]
    rw [hs]
    refine ⟨by simp, fun _ => hrn, by intro hf; simp at hf, ?_⟩
    show s.submitted ++ [s.nextId] = _
    rw [h4, hpn, hrn, hq0]
    simp

/-- The `setImmediate` callback start preserves the queue invariant. -/
theorem qinv_start {s : QState} (h : QInv s) : QInv (startQ s) := by
  obtain ⟨h1, h2, h3, h4⟩ := h
  cases hp : s.pending with
  | none =>
    have hs : startQ s = s := by simp [startQ, hp]
    rw [hs]
    exact ⟨h1, h2, h3, h4⟩
  | some a =>
    have hrn : s.running = none := h2 (by simp [hp])
    have hs : startQ s = { s with pending := none, running := some a } := by
      simp [startQ, hp]
    rw [hs]
    have hip : s.inProgress = true := by
      rw [h1, hp]
      simp
    refine ⟨by simp [hip], by intro hq; simp at hq, by intro hf; simp [hip] at hf, ?_⟩
    show s.submitted = _
    rw [h4, hp, hrn]
    simp

/-- Completion of the running operation preserves the queue invariant. -/
theorem qinv_finish {s : QState} (h : QInv s) : QInv (finishQ s) := by
  obtain ⟨h1, h2, h3, h4⟩ := h
  cases hr : s.running with
  | none =>
    have hs : finishQ s = s := by simp [finishQ, hr]
    rw [hs]
    exact ⟨h1, h2, h3, h4⟩
  | some a =>
    have hpn : s.pending = none := by
      cases hq : s.pending
      · rfl
      · have := h2 (by simp [hq])
        rw [hr] at this
        exact absurd this (by simp)
    cases hq : s.queue with
    | nil =>
      have hs : finishQ s
          = { s with running := none, finished := s.finished ++ [a]
                     inProgress := false } := by
        simp [finishQ, runQ, hr, hq]
      rw [hs]
      refine ⟨by simp [hpn], by intro hx; simp [hpn] at hx, fun _ => hq, ?_⟩
      show s.submitted = _
      rw [h4, hr, hpn, hq]
      simp
    | cons b t =>
      have hs : finishQ s
          = { s with running := none, finished := s.finished ++ [a]
                     inProgress := true, queue := t, pending := some b } := by
        simp [finishQ, runQ, hr, hq]
      rw [hs]
      refine ⟨by simp, fun _ => rfl, by intro hf; simp at hf, ?_⟩
      show s.submitted = _
      rw [h4, hr, hpn, hq]
      simp

/-- C9.  In every reachable state of the `TransactionQueue` exactly-one-
in-flight discipline holds: a dispatched-but-unstarted operation excludes
a running one and vice versa (so no two write transactions are ever
concurrently open), an idle queue is fully drained, and the submission
log always decomposes as completed operations, then the at-most-one
in-flight operation, then the still-queued ones — operations are
dispatched in FIFO submission order, each only after its predecessor
reached a terminal state. -/
theorem queue_discipline (s : QState) (h : Reach s) :
    (s.pending.isSome = true → s.running = none) ∧
    (s.running.isSome = true → s.pending = none) ∧
    (s.inProgress = false → s.queue = []) ∧
    s.submitted = s.finished ++ s.running.toList ++ s.pending.toList ++ s.queue := by
  have hinv : QInv s := by
    induction h with
    | init => exact qinv_init
    | push _ ih => exact qinv_push ih
    | start _ ih => exact qinv_start ih
    | finish _ ih => exact qinv_finish ih
  obtain ⟨h1, h2, h3, h4⟩ := hinv
  refine ⟨h2, ?_, h3, h4⟩
  intro hrun
  cases hq : s.pending with
  | none => rfl
  | some b =>
    have := h2 (by simp [hq])
    rw [this] at hrun
    exact absurd hrun (by simp)

/-- C9 witness: the discipline theorem applied to the concrete reachable
state after one submission, one start and one completion. -/
theorem queue_discipline_witness :
    ((finishQ (startQ (pushQ qInit))).pending.isSome = true →
      (finishQ (startQ (pushQ qInit))).running = none) ∧
    ((finishQ (startQ (pushQ qInit))).running.isSome = true →
      (finishQ (startQ (pushQ qInit))).pending = none) ∧
    ((finishQ (startQ (pushQ qInit))).inProgress = false →
      (finishQ (startQ (pushQ qInit))).queue = []) ∧
    (finishQ (startQ (pushQ qInit))).submitted
      = (finishQ (startQ (pushQ qInit))).finished
        ++ (finishQ (startQ (pushQ qInit))).running.toList
        ++ (finishQ (startQ (pushQ qInit))).pending.toList
        ++ (finishQ (startQ (pushQ qInit))).queue :=
  queue_discipline (finishQ (startQ (pushQ qInit)))
    (Reach.finish (Reach.start (Reach.push Reach.init)))

end PouchSqlite.TransactionQueue

namespace PouchSqlite

/-- Inserting into a list is a permutation of consing. -/
theorem insertSorted_perm {α : Type} (le : α → α → Bool) (a : α) (l : List α) :
    (insertSorted le a l).Perm (a :: l) := by
  induction l with
  | nil => exact List.Perm.refl _
  | cons b t ih =>
    by_cases h : le a b = true
    · rw [insertSorted, if_pos h]
    · rw [insertSorted, if_neg h]
      exact (ih.cons b).trans (List.Perm.swap a b t)

/-- The sort is a permutation of its input (`ORDER BY` reorders, never
drops or duplicates). -/
theorem sortBy_perm {α : Type} (le : α → α → Bool) (l : List α) :
    (sortBy le l).Perm l := by
  induction l with
  | nil => exact List.Perm.refl _
  | cons a t ih =>
    exact (insertSorted_perm le a (sortBy le t)).trans (ih.cons a)

/-- Inserting into a `le`-sorted list keeps it sorted, for a transitive
and total comparator. -/
theorem insertSorted_pairwise {α : Type} (le : α → α → Bool)
    (htrans : ∀ a b c, le a b = true → le b c = true → le a c = true)
    (htot : ∀ a b, le a b = true ∨ le b a = true)
    (a : α) (l : List α)
    (hs : List.Pairwise (fun x y => le x y = true) l) :
    List.Pairwise (fun x y => le x y = true) (insertSorted le a l) := by
  induction l with
  | nil => simp [insertSorted]
  | cons b t ih =>
    obtain ⟨hb, ht⟩ := List.pairwise_cons.mp hs
    by_cases h : le a b = true
    · rw [insertSorted, if_pos h]
      refine List.pairwise_cons.mpr ⟨?_, hs⟩
      intro x hx
      rcases List.mem_cons.mp hx with hx | hx
      · rw [hx]
        exact h
      · exact htrans a b x h (hb x hx)
    · rw [insertSorted, if_neg h]
      refine List.pairwise_cons.mpr ⟨?_, ih ht⟩
      intro x hx
      have hx2 := (insertSorted_perm le a t).subset hx
      rcases List.mem_cons.mp hx2 with hx2 | hx2
      · rw [hx2]
        rcases htot a b with h1 | h1
        · exact absurd h1 h
        · exact h1
      · exact hb x hx2

/-- The sort is sorted, for a transitive and total comparator. -/
theorem sortBy_pairwise {α : Type} (le : α → α → Bool)
    (htrans : ∀ a b c, le a b = true → le b c = true → le a c = true)
    (htot : ∀ a b, le a b = true ∨ le b a = true) (l : List α) :
    List.Pairwise (fun x y => le x y = true) (sortBy le l) := by
  induction l with
  | nil => simp [sortBy]
  | cons a t ih => exact insertSorted_pairwise le htrans htot a (sortBy le t) ih

/-- The `ORDER BY maxSeq ASC` comparator is transitive. -/
theorem seqAsc_trans (a b c : DocRow × SeqRow) :
    seqAsc a b = true → seqAsc b c = true → seqAsc a c = true := by
  simp [seqAsc]
  omega

/-- The `ORDER BY maxSeq ASC` comparator is total. -/
theorem seqAsc_total (a b : DocRow × SeqRow) :
    seqAsc a b = true ∨ seqAsc b a = true := by
  simp [seqAsc]
  omega

/-- The `ORDER BY maxSeq DESC` comparator is transitive. -/
theorem seqDesc_trans (a b c : DocRow × SeqRow) :
    seqDesc a b = true → seqDesc b c = true → seqDesc a c = true := by
  simp [seqDesc]
  omega

/-- The `ORDER BY maxSeq DESC` comparator is total. -/
theorem seqDesc_total (a b : DocRow × SeqRow) :
    seqDesc a b = true ∨ seqDesc b a = true := by
  simp [seqDesc]
  omega

/-- The limit truncation is a sublist of its input. -/
theorem takeLimit_sublist {α : Type} (lim : Option Nat) (l : List α) :
    (takeLimit lim l).Sublist l := by
  cases lim with
  | none => exact List.Sublist.refl l
  | some n => exact List.take_sublist n l

/-- An ascending-kept `since` is left unchanged by the normalization. -/
theorem normSince_false (s : Nat) : normSince s false = s := by
  by_cases h0 : s = 0 <;> simp [normSince, h0]

/-- C10.  A descending one-shot change query ignores the supplied starting
sequence: `opts.since = opts.since && !descending ? opts.since : 0` resets
it to 0, so the feed equals the same query issued with `since = 0`,
scanning all documents in descending sequence order (subject to limit). -/
theorem descending_ignores_since (db : DB) (opts : ChangesOpts)
    (h : opts.descending = true) :
    fetchChanges db opts
      = fetchChanges db ⟨0, opts.limit, opts.descending, opts.docIds⟩ ∧
    List.Pairwise (fun a b => b.seq ≤ a.seq) (fetchChanges db opts).results := by
  constructor
  · simp [fetchChanges, normSince, h]
  · have hres : (fetchChanges db opts).results
        = (takeLimit (limitEff opts.limit)
            (sortBy seqDesc (matchingRows db 0 opts.docIds))).map changeOf := by
      simp [fetchChanges, normSince, h]
    rw [hres]
    refine List.pairwise_map.mpr ?_
    refine List.Pairwise.imp ?_
      (List.Pairwise.sublist (takeLimit_sublist _ _)
        (sortBy_pairwise seqDesc seqDesc_trans seqDesc_total _))
    intro p q hpq
    exact of_decide_eq_true hpq

/-- C10 witness: the descending query on `dbA` with checkpoint 5 equals
the one with checkpoint 0. -/
theorem descending_ignores_since_witness :
    fetchChanges dbA ⟨5, none, true, none⟩
      = fetchChanges dbA ⟨0, none, true, none⟩ ∧
    List.Pairwise (fun a b => b.seq ≤ a.seq)
      (fetchChanges dbA ⟨5, none, true, none⟩).results :=
  descending_ignores_since dbA ⟨5, none, true, none⟩ rfl

end PouchSqlite

namespace PouchSqlite

/-- C5 counterexample.  On `dbA` (one document, max sequence 1): a query
with `limit: 0` reports one result, not at most zero — the code turns a
zero limit into 1; and a descending query with starting sequence 5 also
reports one result although no document has max sequence above 5 — the
checkpoint is discarded for descending scans. -/
theorem changes_limit_zero_cx :
    (fetchChanges dbA ⟨0, some 0, false, none⟩).results.length = 1 ∧
    ¬((fetchChanges dbA ⟨0, some 0, false, none⟩).results.length ≤ 0) ∧
    (fetchChanges dbA ⟨5, none, true, none⟩).results.length = 1 ∧
    (∀ d ∈ dbA.docStore, ¬(5 < d.maxSeq)) := by
  refine ⟨rfl, by decide, rfl, by decide⟩

/-- C5 amended.  For every ascending one-shot change query with starting
sequence S: the reported rows are sorted by sequence; every reported row
has sequence above S; with no limit the reported rows are exactly (a
permutation picked by the sort of) the joined document rows whose max
sequence exceeds S; with limit L at most `max 1 L` rows are reported (a
limit of zero is treated as one); and the reported `last_seq` is the
sequence of the last reported row, S when there is none. -/
theorem changes_one_shot_spec (db : DB) (opts : ChangesOpts)
    (hd : opts.descending = false) :
    List.Pairwise (fun a b => a.seq ≤ b.seq) (fetchChanges db opts).results ∧
    (∀ c ∈ (fetchChanges db opts).results, opts.since < c.seq) ∧
    (opts.limit = none →
      ((fetchChanges db opts).results).Perm
        ((matchingRows db opts.since opts.docIds).map changeOf)) ∧
    (∀ n, opts.limit = some n →
      (fetchChanges db opts).results.length ≤ max 1 n) ∧
    (fetchChanges db opts).lastSeq
      = ((fetchChanges db opts).results.getLast?).elim opts.since
          (fun c => c.seq) := by
  have hns : normSince opts.since opts.descending = opts.since := by
    rw [hd]
    exact normSince_false opts.since
  have hres : (fetchChanges db opts).results
      = (takeLimit (limitEff opts.limit)
          (sortBy seqAsc (matchingRows db opts.since opts.docIds))).map changeOf := by
    simp [fetchChanges, hd, normSince_false]
  have hlast : (fetchChanges db opts).lastSeq
      = ((takeLimit (limitEff opts.limit)
          (sortBy seqAsc (matchingRows db opts.since opts.docIds))).getLast?).elim
          opts.since (fun p => p.1.maxSeq) := by
    simp [fetchChanges, hd, normSince_false]
  have hsort : List.Pairwise (fun p q => seqAsc p q = true)
      (sortBy seqAsc (matchingRows db opts.since opts.docIds)) :=
    sortBy_pairwise seqAsc seqAsc_trans seqAsc_total _
  have hsub : (takeLimit (limitEff opts.limit)
      (sortBy seqAsc (matchingRows db opts.since opts.docIds))).Sublist
      (sortBy seqAsc (matchingRows db opts.since opts.docIds)) :=
    takeLimit_sublist _ _
  refine ⟨?_, ?_, ?_, ?_, ?_⟩
  · rw [hres]
    refine List.pairwise_map.mpr ?_
    refine List.Pairwise.imp ?_ (List.Pairwise.sublist hsub hsort)
    intro p q hpq
    exact of_decide_eq_true hpq
  · intro c hc
    rw [hres] at hc
    rcases List.mem_map.mp hc with ⟨p, hp, hcp⟩
    have hp2 : p ∈ sortBy seqAsc (matchingRows db opts.since opts.docIds) :=
      hsub.subset hp
    have hp3 : p ∈ matchingRows db opts.since opts.docIds :=
      (sortBy_perm seqAsc _).subset hp2
    have hp4 := (List.mem_filter.mp hp3).2
    have hp5 := (Bool.and_eq_true _ _).mp hp4
    rw [← hcp]
    exact of_decide_eq_true hp5.1
  · intro hnone
    rw [hres, hnone]
    exact List.Perm.map changeOf (sortBy_perm seqAsc _)
  · intro n hn
    rw [hres, hn]
    cases n with
    | zero =>
      simp [limitEff, takeLimit, List.length_take]
    | succ m =>
      simp [limitEff, takeLimit, List.length_take]
  · rw [hlast, hres, List.getLast?_map]
    cases (takeLimit (limitEff opts.limit)
        (sortBy seqAsc (matchingRows db opts.since opts.docIds))).getLast? with
    | none => rfl
    | some p => rfl

/-- C5 witness: the one-shot specification applied to `dbA` with starting
sequence 0 and no limit. -/
theorem changes_one_shot_spec_witness :
    List.Pairwise (fun a b => a.seq ≤ b.seq)
      (fetchChanges dbA ⟨0, none, false, none⟩).results ∧
    (∀ c ∈ (fetchChanges dbA ⟨0, none, false, none⟩).results, 0 < c.seq) ∧
    ((none : Option Nat) = none →
      ((fetchChanges dbA ⟨0, none, false, none⟩).results).Perm
        ((matchingRows dbA 0 none).map changeOf)) ∧
    (∀ n, (none : Option Nat) = some n →
      (fetchChanges dbA ⟨0, none, false, none⟩).results.length ≤ max 1 n) ∧
    (fetchChanges dbA ⟨0, none, false, none⟩).lastSeq
      = ((fetchChanges dbA ⟨0, none, false, none⟩).results.getLast?).elim 0
          (fun c => c.seq) :=
  changes_one_shot_spec dbA ⟨0, none, false, none⟩ rfl

end PouchSqlite

namespace PouchSqlite

/-- Head component of a `processDocs` step (structure eta). -/
theorem processAll_cons_fst (di : DocInfo) (tok : String)
    (l : List (DocInfo × String)) (db : DB) :
    (processAll db ((di, tok) :: l)).1
      = (processAll (insertDoc di di.data.deleted di.metadata.rev.isSome tok db).1
          l).1 :=
  rfl

/-- The `processDocs` loop appends one by-sequence row per document,
carrying exactly the consecutive AUTOINCREMENT sequence numbers from the
current counter, which advances by the number of documents. -/
theorem processAll_seqs (l : List (DocInfo × String)) (db : DB) :
    ∃ new : List SeqRow,
      (processAll db l).1.bySeq = db.bySeq ++ new ∧
      new.map (fun r => r.seq) = List.range' db.nextSeq new.length ∧
      (processAll db l).1.nextSeq = db.nextSeq + new.length := by
  induction l generalizing db with
  | nil => exact ⟨[], by simp [processAll], by simp, by simp [processAll]⟩
  | cons p tl ih =>
    obtain ⟨di, tok⟩ := p
    obtain ⟨hb, hn⟩ := insertDoc_bySeq di di.data.deleted di.metadata.rev.isSome
      tok db
    obtain ⟨new2, h1, h2, h3⟩ :=
      ih (insertDoc di di.data.deleted di.metadata.rev.isSome tok db).1
    refine ⟨⟨db.nextSeq, di.data.body, di.data.deleted,
      (if isLocalId di.data.id then none else some di.data.id),
      newRevOf di.metadata.rev tok⟩ :: new2, ?_, ?_, ?_⟩
    · rw [processAll_cons_fst, h1, hb]
      simp
    · simp only [List.map_cons, h2, hn, List.length_cons]
      rw [List.range'_succ]
    · rw [processAll_cons_fst, h3, hn, List.length_cons]
      omega

/-- Head component of `sqliteBulkDocs` is the `processDocs` result. -/
theorem sqliteBulkDocs_fst (docs : List DocData) (toks : List String) (db : DB) :
    (sqliteBulkDocs docs toks db).1
      = (processAll db
          ((((docs.map (fun d =>
                DocInfo.mk d ⟨d.id, none, [], false, none⟩)).map
              (fetchExisting db)).map (fun p => p.1)).zip toks)).1 :=
  rfl

/-- A bulk write appends by-sequence rows with exactly the consecutive
sequence numbers starting at the current counter. -/
theorem sqliteBulkDocs_seqs (docs : List DocData) (toks : List String)
    (db : DB) :
    ∃ new : List SeqRow,
      (sqliteBulkDocs docs toks db).1.bySeq = db.bySeq ++ new ∧
      new.map (fun r => r.seq) = List.range' db.nextSeq new.length ∧
      (sqliteBulkDocs docs toks db).1.nextSeq = db.nextSeq + new.length := by
  rw [sqliteBulkDocs_fst]
  exact processAll_seqs _ db

/-- Compaction only deletes by-sequence rows and never touches the
sequence counter. -/
theorem doCompaction_seqs (docId : String) (revs : List Rev) (db : DB) :
    (doCompaction docId revs db).bySeq.length ≤ db.bySeq.length ∧
    (doCompaction docId revs db).nextSeq = db.nextSeq := by
  unfold doCompaction
  by_cases he : revs.isEmpty = true
  · simp [he]
  · simp only [he, Bool.false_eq_true, if_neg, ite_false]
    cases hf : db.docStore.find? (fun r => r.id = docId) with
    | none => simp
    | some row =>
      simp [compactRevs, List.length_filter_le]

/-- The seq numbers a step reports: a write reports its appended rows, the
other operations report nothing. -/
theorem newSeqsOf_applyOp (db : DB) (op : Op) :
    (∀ docs toks, op = Op.write docs toks →
      newSeqsOf db (applyOp db op)
        = List.range' db.nextSeq ((applyOp db op).nextSeq - db.nextSeq) ∧
      db.nextSeq ≤ (applyOp db op).nextSeq) ∧
    (∀ docId revs, op = Op.compact docId revs →
      newSeqsOf db (applyOp db op) = [] ∧ (applyOp db op).nextSeq = db.nextSeq) ∧
    (op = Op.closeReopen →
      newSeqsOf db (applyOp db op) = [] ∧ (applyOp db op).nextSeq = db.nextSeq) := by
  refine ⟨?_, ?_, ?_⟩
  · intro docs toks hop
    subst hop
    obtain ⟨new, hb, hm, hn⟩ := sqliteBulkDocs_seqs docs toks db
    constructor
    · show ((sqliteBulkDocs docs toks db).1.bySeq.drop db.bySeq.length).map _ = _
      rw [hb, List.drop_left, hm]
      congr 1
      show new.length = (sqliteBulkDocs docs toks db).1.nextSeq - db.nextSeq
      rw [hn]
      omega
    · show db.nextSeq ≤ (sqliteBulkDocs docs toks db).1.nextSeq
      rw [hn]
      omega
  · intro docId revs hop
    subst hop
    obtain ⟨hl, hn⟩ := doCompaction_seqs docId revs db
    refine ⟨?_, hn⟩
    show ((doCompaction docId revs db).bySeq.drop db.bySeq.length).map _ = _
    rw [List.drop_eq_nil_of_le hl]
    rfl
  · intro hop
    subst hop
    refine ⟨?_, rfl⟩
    show (db.bySeq.drop db.bySeq.length).map _ = _
    rw [List.drop_length]
    rfl

/-- Head and log components of a trace step (structure eta). -/
theorem runOps_cons (db : DB) (op : Op) (tl : List Op) :
    (runOps db (op :: tl)).1 = (runOps (applyOp db op) tl).1 ∧
    (runOps db (op :: tl)).2
      = newSeqsOf db (applyOp db op) ++ (runOps (applyOp db op) tl).2 :=
  ⟨rfl, rfl⟩

/-- Along any trace from any starting state: the assigned sequence log is
strictly increasing, all its entries lie between the starting counter and
the final counter, and the counter never decreases. -/
theorem runOps_spec (ops : List Op) (db : DB) :
    List.Chain' (fun a b => a < b) ((runOps db ops).2) ∧
    (∀ x ∈ (runOps db ops).2,
      db.nextSeq ≤ x ∧ x < (runOps db ops).1.nextSeq) ∧
    db.nextSeq ≤ (runOps db ops).1.nextSeq := by
  induction ops generalizing db with
  | nil =>
    refine ⟨List.chain'_nil, ?_, Nat.le_refl _⟩
    intro x hx
    exact absurd hx (List.not_mem_nil x)
  | cons op tl ih =>
    obtain ⟨hfst, hsnd⟩ := runOps_cons db op tl
    obtain ⟨ihc, ihm, ihn⟩ := ih (applyOp db op)
    have hstep : newSeqsOf db (applyOp db op)
          = List.range' db.nextSeq ((applyOp db op).nextSeq - db.nextSeq) ∧
        db.nextSeq ≤ (applyOp db op).nextSeq := by
      cases op with
      | write docs toks => exact (newSeqsOf_applyOp db _).1 docs toks rfl
      | compact docId revs =>
        obtain ⟨h1, h2⟩ := (newSeqsOf_applyOp db _).2.1 docId revs rfl
        rw [h1, h2]
        simp
      | closeReopen =>
        obtain ⟨h1, h2⟩ := (newSeqsOf_applyOp db _).2.2 rfl
        rw [h1, h2]
        simp
    obtain ⟨hw, hle⟩ := hstep
    rw [hsnd, hfst, hw]
    refine ⟨?_, ?_, Nat.le_trans hle ihn⟩
    · refine List.chain'_append.mpr ⟨?_, ihc, ?_⟩
      · exact (List.pairwise_lt_range' _ _).chain'
      · intro x hx y hy
        have hx2 := List.mem_range'_1.mp (List.mem_of_mem_getLast? hx)
        have hy2 := (ihm y (List.mem_of_mem_head? hy)).1
        omega
    · intro x hx
      rcases List.mem_append.mp hx with hx | hx
      · have hx2 := List.mem_range'_1.mp hx
        have := ihn
        constructor
        · omega
        · rw [hfst] at *
          omega
      · obtain ⟨h1, h2⟩ := ihm x hx
        exact ⟨Nat.le_trans hle h1, h2⟩

/-- C6.  Starting from a fresh database file, along every trace of bulk
writes, compactions and close/reopen cycles, the sequence numbers assigned
to by-sequence rows (observed in assignment order) are strictly increasing
and pairwise distinct — a sequence number is never reused, even after
compaction deletes rows or the file is closed and reopened. -/
theorem seq_strictly_increasing (ops : List Op) :
    List.Chain' (fun a b => a < b) ((runOps emptyDB ops).2) ∧
    List.Pairwise (fun a b => a < b) ((runOps emptyDB ops).2) := by
  have h := (runOps_spec ops emptyDB).1
  refine ⟨h, ?_⟩
  haveI : IsTrans Nat (fun a b => a < b) := ⟨fun a b c => Nat.lt_trans⟩
  exact List.chain'_iff_pairwise.mp h

end PouchSqlite
